import Mathlib

/-!
Verification development for the Remix PCA audio core.

The repository ships the C FFI headers `music_tool.h` and `remix.h` for a
PCA-based audio decomposition library. The operations declared there
(`pca_process_audio`, `pca_get_component_info`, `pca_get_component_audio`,
`pca_mix_components`, `pca_encode_wav`, `audio_convert_to_wav` /
`pca_convert_to_wav`, `demucs_stem_count`, `demucs_stem_name`) are shallowly
embedded below. Samples are modelled as rationals, machine integers as
`Nat`/`Int` with explicit wrap where it matters, and fallible operations
return `Except`.
-/

namespace Remix

/-- Modelled from the spec: the error taxonomy of section 7 (the Rust
implementation behind the headers is not part of the sources). -/
inductive ErrorKind where
  | validation
  | insufficientData
  | indexOutOfRange
  | decodeFailure
  | unsupportedFormat
  | encodeFailure
  | externalRuntimeUnavailable
deriving DecidableEq

/-- An error value: a kind from the taxonomy plus a human-readable message. -/
structure PcaError where
  kind : ErrorKind
  message : String
deriving DecidableEq

instance {ε α : Type} [DecidableEq ε] [DecidableEq α] :
    DecidableEq (Except ε α) := fun a b =>
  match a, b with
  | Except.ok x, Except.ok y =>
    if h : x = y then isTrue (by rw [h])
    else isFalse (by intro hc; cases hc; exact h rfl)
  | Except.error x, Except.error y =>
    if h : x = y then isTrue (by rw [h])
    else isFalse (by intro hc; cases hc; exact h rfl)
  | Except.ok _, Except.error _ => isFalse (by intro hc; cases hc)
  | Except.error _, Except.ok _ => isFalse (by intro hc; cases hc)

/-- The kind of the error of a failed computation, `none` on success. -/
def errKind {α : Type} : Except PcaError α → Option ErrorKind
  | Except.error e => some e.kind
  | Except.ok _ => none

/-- Modelled from the spec: the Windowing Engine (section 4.1) behind
`pca_process_audio`; its implementation is not under the sources. Collects
frames of length `w` starting at offset `start`, advancing by `h`, while a
full frame of `w` samples remains available. The `fuel` argument only bounds
the recursion; `frames` supplies enough of it for the loop to finish. -/
def framesFromAux (fuel : ℕ) (xs : List ℚ) (w h start : ℕ) : List (List ℚ) :=
  match fuel with
  | 0 => []
  | fuel + 1 =>
    if 1 ≤ w ∧ 1 ≤ h ∧ start + w ≤ xs.length then
      ((xs.drop start).take w) :: framesFromAux fuel xs w h (start + h)
    else
      []

/-- The frame sequence of a sample sequence for window size `w`, hop `h`. -/
def frames (xs : List ℚ) (w h : ℕ) : List (List ℚ) :=
  framesFromAux (xs.length + 1) xs w h 0

/-- The number of frames the Windowing Engine produces. -/
def numFrames (xs : List ℚ) (w h : ℕ) : ℕ := (frames xs w h).length

theorem framesFromAux_length (xs : List ℚ) (w h : ℕ) (hw : 1 ≤ w) (hh : 1 ≤ h) :
    ∀ fuel start, xs.length - start < fuel →
      (framesFromAux fuel xs w h start).length =
        if start + w ≤ xs.length then (xs.length - start - w) / h + 1 else 0 := by
  intro fuel
  induction fuel with
  | zero => omega
  | succ fuel ih =>
    intro start hfuel
    rw [framesFromAux]
    by_cases hb : start + w ≤ xs.length
    · rw [if_pos ⟨hw, hh, hb⟩, if_pos hb, List.length_cons,
        ih (start + h) (by omega)]
      by_cases hb2 : start + h + w ≤ xs.length
      · rw [if_pos hb2]
        have hle : h ≤ xs.length - start - w := by omega
        have hsub : xs.length - (start + h) - w = xs.length - start - w - h := by
          omega
        rw [hsub, ← Nat.div_eq_sub_div hh hle]
      · rw [if_neg hb2]
        have hlt : xs.length - start - w < h := by omega
        rw [Nat.div_eq_of_lt hlt]
    · rw [if_neg (by tauto), if_neg hb]
      rfl

/-- Claim C1: for every sample sequence of length `N`, window size `w ≥ 1` and
hop size `h ≥ 1`, the Windowing Engine produces exactly `(N - w) / h + 1`
frames when `N ≥ w`, and zero frames when `N < w`. -/
theorem numFrames_eq (xs : List ℚ) (w h : ℕ) (hw : 1 ≤ w) (hh : 1 ≤ h) :
    numFrames xs w h = if w ≤ xs.length then (xs.length - w) / h + 1 else 0 := by
  unfold numFrames frames
  rw [framesFromAux_length xs w h hw hh (xs.length + 1) 0 (by omega)]
  simp

/-- Witness for C1 at a concrete input: five samples, window 2, hop 1 give
`(5 - 2) / 1 + 1 = 4` frames. -/
theorem numFrames_eq_witness :
    numFrames [1, 0, 1, 0, 1] 2 1 = if 2 ≤ 5 then (5 - 2) / 1 + 1 else 0 :=
  numFrames_eq [1, 0, 1, 0, 1] 2 1 (by decide) (by decide)

/-- Dot product of two rational vectors (shorter one padded by truncation). -/
def dotQ (a b : List ℚ) : ℚ := (List.zipWith (fun x y => x * y) a b).sum

/-- Elementwise mean of the frame set at dimension `d`. -/
def meanAt (fs : List (List ℚ)) (d : ℕ) : ℚ :=
  (fs.map (fun f => f.getD d 0)).sum / (fs.length : ℚ)

/-- Modelled from the spec: the mean frame of the PCA Decomposer (section 4.2). -/
def meanFrame (fs : List (List ℚ)) (w : ℕ) : List ℚ :=
  (List.range w).map (meanAt fs)

/-- Mean-centers every frame of the frame set. -/
def centered (fs : List (List ℚ)) (w : ℕ) : List (List ℚ) :=
  fs.map (fun f => (List.range w).map (fun d => f.getD d 0 - meanAt fs d))

/-- Variance of the centered frame set along direction `v`: the average of the
squared projections. For a unit eigenvector of the covariance matrix this is
exactly its eigenvalue. -/
def eigvalOf (cfs : List (List ℚ)) (v : List ℚ) : ℚ :=
  (cfs.map (fun x => dotQ x v ^ 2)).sum / (cfs.length : ℚ)

/-- Total variance: the trace of the covariance matrix, i.e. the sum over
dimensions of the average squared centered sample. This is the sum of the
full eigenvalue spectrum, the denominator of every variance ratio. -/
def totalVariance (cfs : List (List ℚ)) (w : ℕ) : ℚ :=
  ((List.range w).map (fun d =>
    (cfs.map (fun x => x.getD d 0 ^ 2)).sum / (cfs.length : ℚ))).sum

/-- One retained principal component, mirroring `ComponentInfoFFI` of
music_tool.h plus the eigenvector the session stores for it. -/
structure Component where
  eigenvector : List ℚ
  eigenvalue : ℚ
  variance_ratio : ℚ
deriving DecidableEq

instance : Inhabited Component := ⟨⟨[], 0, 0⟩⟩

/-- Descending-eigenvalue order on components. -/
def compGE (a b : Component) : Prop := b.eigenvalue ≤ a.eigenvalue

instance : DecidableRel compGE := fun a b =>
  inferInstanceAs (Decidable (b.eigenvalue ≤ a.eigenvalue))

instance : IsTotal Component compGE := ⟨fun a b => le_total b.eigenvalue a.eigenvalue⟩

instance : IsTrans Component compGE := ⟨fun _ _ _ h1 h2 => le_trans h2 h1⟩

/-- Modelled from the spec: the PCA Decomposer (section 4.2); the numeric
symmetric eigendecomposition itself is not under the sources and is not
exactly expressible over ℚ, so the candidate eigendirections `dirs` are
abstracted as an input. Each direction is annotated with its variance
(eigenvalue) and its variance ratio relative to the full spectrum, the list
is sorted by descending eigenvalue, and the top `k` are retained. -/
def pcaComponents (fs : List (List ℚ)) (dirs : List (List ℚ)) (k w : ℕ) :
    List Component :=
  (List.insertionSort compGE (dirs.map (fun v =>
    Component.mk v (eigvalOf (centered fs w) v)
      (eigvalOf (centered fs w) v / totalVariance (centered fs w) w)))).take k

/-- The projection coefficient table: for each frame, the dot product of the
centered frame with each retained eigenvector. -/
def projections (cfs : List (List ℚ)) (comps : List Component) : List (List ℚ) :=
  cfs.map (fun x => comps.map (fun c => dotQ x c.eigenvector))

/-- The session of music_tool.h (opaque `PcaSession`): sample rate, window
size, hop size, the mean frame, the ordered retained components and the
projection coefficient table. Immutable after construction. -/
structure PcaSession where
  sample_rate : ℕ
  window_size : ℕ
  hop_size : ℕ
  mean_frame : List ℚ
  components : List Component
  coefficients : List (List ℚ)
deriving DecidableEq

/-- The number of retained components of a session. -/
def numComponents (s : PcaSession) : ℕ := s.components.length

/-- Modelled from the spec: `createSession` (section 4.3) behind
`pca_process_audio`; the implementation is not under the sources. Validates
the parameters (ValidationError), then the data sufficiency
(InsufficientDataError, per the section 7 taxonomy), then decomposes. -/
def createSession (samples : List ℚ) (sampleRate : ℕ)
    (nc windowSize hopSize : ℕ) (dirs : List (List ℚ)) :
    Except PcaError PcaSession :=
  if nc < 1 then
    Except.error ⟨ErrorKind.validation, "num_components must be at least 1"⟩
  else if windowSize < 1 then
    Except.error ⟨ErrorKind.validation, "window_size must be at least 1"⟩
  else if hopSize < 1 then
    Except.error ⟨ErrorKind.validation, "hop_size must be at least 1"⟩
  else if samples.length < windowSize then
    Except.error ⟨ErrorKind.insufficientData, "not enough samples for one window"⟩
  else if windowSize < nc then
    Except.error ⟨ErrorKind.insufficientData,
      "cannot extract more components than dimensions"⟩
  else
    Except.ok ⟨sampleRate, windowSize, hopSize,
      meanFrame (frames samples windowSize hopSize) windowSize,
      pcaComponents (frames samples windowSize hopSize) dirs nc windowSize,
      projections (centered (frames samples windowSize hopSize) windowSize)
        (pcaComponents (frames samples windowSize hopSize) dirs nc windowSize)⟩

/-- Number of frames whose extent covers output position `t` (hop `h`). -/
def coverCount (fs : List (List ℚ)) (h t : ℕ) : ℕ :=
  ((List.range fs.length).filter (fun j =>
    decide (j * h ≤ t ∧ t - j * h < (fs.getD j []).length))).length

/-- Sum of the contributions of all frames to output position `t`. -/
def sumAt (fs : List (List ℚ)) (h t : ℕ) : ℚ :=
  ((List.range fs.length).map (fun j =>
    if j * h ≤ t ∧ t - j * h < (fs.getD j []).length then
      (fs.getD j []).getD (t - j * h) 0
    else 0)).sum

/-- Length of the overlap-add output: the furthest extent of any frame. -/
def outLength (fs : List (List ℚ)) (h : ℕ) : ℕ :=
  (List.range fs.length).foldr (fun j m => max (j * h + (fs.getD j []).length) m) 0

/-- Modelled from the spec: overlap-add reconstruction (section 4.1); the
implementation is not under the sources and the spec leaves the
normalization convention open, so this model normalizes each output position
by the number of frames covering it, the convention under which edge samples
are not attenuated relative to interior ones. -/
def overlapAdd (fs : List (List ℚ)) (h : ℕ) : List ℚ :=
  (List.range (outLength fs h)).map (fun t => sumAt fs h t / (coverCount fs h t : ℚ))

/-- The reconstructed frame sequence of a single component: for each frame,
mean frame plus that frame's coefficient times the eigenvector. -/
def componentFrames (s : PcaSession) (i : ℕ) : List (List ℚ) :=
  (List.range s.coefficients.length).map (fun j =>
    (List.range s.window_size).map (fun d =>
      s.mean_frame.getD d 0 +
        (s.coefficients.getD j []).getD i 0 *
          ((s.components.getD i default).eigenvector.getD d 0)))

/-- Modelled from the spec: `getComponentInfo` (section 4.3) behind
`pca_get_component_info`; the implementation is not under the sources. An
index outside `0 ≤ i < numComponents` is an IndexOutOfRange error. -/
def getComponentInfo (s : PcaSession) (i : ℤ) : Except PcaError (ℚ × ℚ) :=
  if 0 ≤ i ∧ i < (numComponents s : ℤ) then
    let c := s.components.getD i.toNat default
    Except.ok (c.eigenvalue, c.variance_ratio)
  else
    Except.error ⟨ErrorKind.indexOutOfRange, "component index out of range"⟩

/-- Modelled from the spec: `getComponentAudio` (section 4.3) behind
`pca_get_component_audio`; the implementation is not under the sources.
Reconstructs the single component via inverse projection and overlap-add. -/
def getComponentAudio (s : PcaSession) (i : ℤ) : Except PcaError (List ℚ × ℕ) :=
  if 0 ≤ i ∧ i < (numComponents s : ℤ) then
    Except.ok (overlapAdd (componentFrames s i.toNat) s.hop_size, s.sample_rate)
  else
    Except.error ⟨ErrorKind.indexOutOfRange, "component index out of range"⟩

/-- The reconstructed frame sequence of a volume-weighted mix: for each frame,
mean frame plus the volume-weighted sum of coefficient-scaled eigenvectors.
Volumes beyond the end of the list count as zero. -/
def mixFrames (s : PcaSession) (volumes : List ℚ) : List (List ℚ) :=
  (List.range s.coefficients.length).map (fun j =>
    (List.range s.window_size).map (fun d =>
      s.mean_frame.getD d 0 +
        Finset.sum (Finset.range (numComponents s)) (fun i =>
          volumes.getD i 0 * (s.coefficients.getD j []).getD i 0 *
            ((s.components.getD i default).eigenvector.getD d 0))))

/-- Modelled from the spec: `mix` (section 4.4) behind `pca_mix_components`;
the implementation is not under the sources. Errors when more volumes than
components are given; a shorter list means zero for the trailing ones. -/
def mix (s : PcaSession) (volumes : List ℚ) : Except PcaError (List ℚ × ℕ) :=
  if numComponents s < volumes.length then
    Except.error ⟨ErrorKind.validation, "more volumes than components"⟩
  else
    Except.ok (overlapAdd (mixFrames s volumes) s.hop_size, s.sample_rate)

/-- The Mix Specification that is unit volume at `i` and zero elsewhere. -/
def unitVolumes (k i : ℕ) : List ℚ :=
  (List.range k).map (fun j => if j = i then 1 else 0)

/-- A concrete two-component session used by the witnesses. -/
def sampleSession : PcaSession :=
  ⟨8, 2, 1, [1/2, 1/2], [⟨[1, 0], 2, 1/2⟩, ⟨[0, 1], 1, 1/4⟩], [[1, 0], [0, 1]]⟩

/-- Claim C2: for every session and every component index, `getComponentInfo`
and `getComponentAudio` fail with an IndexOutOfRange error exactly when the
index is not in `0 ≤ i < numComponents` (in particular for `i ≥ numComponents`
and for negative `i`), and succeed otherwise. -/
theorem componentQueries_index_check (s : PcaSession) (i : ℤ) :
    (errKind (getComponentInfo s i) =
      if 0 ≤ i ∧ i < (numComponents s : ℤ) then none
      else some ErrorKind.indexOutOfRange) ∧
    (errKind (getComponentAudio s i) =
      if 0 ≤ i ∧ i < (numComponents s : ℤ) then none
      else some ErrorKind.indexOutOfRange) := by
  by_cases hir : 0 ≤ i ∧ i < (numComponents s : ℤ) <;>
    simp [getComponentInfo, getComponentAudio, errKind, hir]

/-- Claim C4 (amended): `createSession` validates `numComponents ≥ 1`,
`windowSize ≥ 1`, `hopSize ≥ 1` and decoded sample count ≥ windowSize;
parameter-range violations fail with ValidationError, while a decoded sample
count shorter than the window (and a component count exceeding the window)
fail with InsufficientDataError per the section 7 taxonomy; every failing
case returns an error value and no session. -/
theorem createSession_validation (samples : List ℚ) (rate nc w h : ℕ)
    (dirs : List (List ℚ)) :
    errKind (createSession samples rate nc w h dirs) =
      if nc < 1 ∨ w < 1 ∨ h < 1 then some ErrorKind.validation
      else if samples.length < w ∨ w < nc then some ErrorKind.insufficientData
      else none := by
  unfold createSession
  split_ifs with h1 h2 h3 h4 h5 h6 h7 <;> first | rfl | omega

/-- Counterexample to claim C4 as stated: with valid parameters
`numComponents = 1`, `windowSize = 2`, `hopSize = 1` but a decoded sample
count of 1 < windowSize, `createSession` fails with InsufficientDataError,
not with ValidationError. -/
theorem createSession_short_input_kind :
    createSession [0] 44100 1 2 1 [] =
      Except.error ⟨ErrorKind.insufficientData,
        "not enough samples for one window"⟩ ∧
    ErrorKind.insufficientData ≠ ErrorKind.validation :=
  ⟨rfl, by decide⟩

theorem unitVolumes_getD (k i j : ℕ) (hj : j < k) :
    (unitVolumes k i).getD j 0 = if j = i then 1 else 0 := by
  unfold unitVolumes
  rw [List.getD_eq_getD_get?, List.get?_map, List.get?_range hj]
  rfl

theorem mixFrames_unit (s : PcaSession) (i : ℕ) (hi : i < numComponents s) :
    mixFrames s (unitVolumes (numComponents s) i) = componentFrames s i := by
  unfold mixFrames componentFrames
  refine List.map_congr_left fun j _ => ?_
  refine List.map_congr_left fun d _ => ?_
  congr 1
  have hstep : ∀ i' ∈ Finset.range (numComponents s),
      (unitVolumes (numComponents s) i).getD i' 0 *
          (s.coefficients.getD j []).getD i' 0 *
          ((s.components.getD i' default).eigenvector.getD d 0) =
        if i' = i then
          (s.coefficients.getD j []).getD i' 0 *
            ((s.components.getD i' default).eigenvector.getD d 0)
        else 0 := by
    intro i' hi'
    rw [unitVolumes_getD _ _ _ (Finset.mem_range.mp hi')]
    by_cases he : i' = i <;> simp [he]
  rw [Finset.sum_congr rfl hstep,
    Finset.sum_ite_eq' (Finset.range (numComponents s)) i
      (fun i' => (s.coefficients.getD j []).getD i' 0 *
        ((s.components.getD i' default).eigenvector.getD d 0)),
    if_pos (Finset.mem_range.mpr hi)]

/-- Claim C3: for every session and every valid component index `i`, mixing
with the Mix Specification that is unit volume at `i` and zero elsewhere
returns exactly the sample sequence of `getComponentAudio` at `i`. -/
theorem mix_unit_eq_getComponentAudio (s : PcaSession) (i : ℕ)
    (hi : i < numComponents s) :
    mix s (unitVolumes (numComponents s) i) = getComponentAudio s (i : ℤ) := by
  unfold mix getComponentAudio
  rw [if_neg (by simp [unitVolumes]),
    if_pos ⟨Int.ofNat_nonneg i, by exact_mod_cast hi⟩]
  rw [show ((i : ℤ)).toNat = i from rfl, mixFrames_unit s i hi]

/-- Witness for C3 at the concrete session `sampleSession`, component 0. -/
theorem mix_unit_eq_getComponentAudio_witness :
    0 < numComponents sampleSession ∧
      mix sampleSession (unitVolumes (numComponents sampleSession) 0) =
        getComponentAudio sampleSession (0 : ℤ) :=
  ⟨by decide, mix_unit_eq_getComponentAudio sampleSession 0 (by decide)⟩

theorem getD_append_replicate_zero (l : List ℚ) (m j : ℕ) :
    (l ++ List.replicate m (0 : ℚ)).getD j 0 = l.getD j 0 := by
  by_cases hj : j < l.length
  · exact List.getD_append l _ 0 j hj
  · rw [List.getD_append_right l _ 0 j (le_of_not_lt hj)]
    have h1 : (List.replicate m (0 : ℚ)).getD (j - l.length) 0 = 0 := by
      rw [List.getD_eq_getD_get?]
      cases hg : (List.replicate m (0 : ℚ)).get? (j - l.length) with
      | none => rfl
      | some a =>
        have ha := List.eq_of_mem_replicate (List.get?_mem hg)
        rw [ha]
        rfl
    have h2 : l.getD j 0 = 0 := by
      rw [List.getD_eq_getD_get?, List.get?_eq_none.mpr (le_of_not_lt hj)]
      rfl
    rw [h1, h2]

theorem mixFrames_pad (s : PcaSession) (volumes : List ℚ) (m : ℕ) :
    mixFrames s (volumes ++ List.replicate m 0) = mixFrames s volumes := by
  unfold mixFrames
  refine List.map_congr_left fun j _ => ?_
  refine List.map_congr_left fun d _ => ?_
  congr 1
  refine Finset.sum_congr rfl fun i' _ => ?_
  rw [getD_append_replicate_zero]

/-- Claim C7: `mix` fails (with a validation error) exactly when the volume
list is longer than the session has components, and a shorter volume list is
interpreted as zero volume for every unspecified trailing component. -/
theorem mix_volumes_spec (s : PcaSession) (volumes : List ℚ) :
    (errKind (mix s volumes) =
      if numComponents s < volumes.length then some ErrorKind.validation
      else none) ∧
    (volumes.length ≤ numComponents s →
      mix s volumes =
        mix s (volumes ++ List.replicate (numComponents s - volumes.length) 0)) := by
  constructor
  · unfold mix
    split <;> rfl
  · intro hle
    have hlen : (volumes ++
        List.replicate (numComponents s - volumes.length) (0 : ℚ)).length =
        numComponents s := by
      simp
      omega
    unfold mix
    rw [if_neg (not_lt.mpr hle), if_neg (by rw [hlen]; exact lt_irrefl _),
      mixFrames_pad]

/-- Witness for C7 at the concrete session `sampleSession` with one volume. -/
theorem mix_volumes_spec_witness :
    mix sampleSession [1] =
      mix sampleSession ([1] ++ List.replicate (numComponents sampleSession - 1) 0) :=
  (mix_volumes_spec sampleSession [1]).2 (by decide)

theorem eigvalOf_nonneg (cfs : List (List ℚ)) (v : List ℚ) : 0 ≤ eigvalOf cfs v := by
  unfold eigvalOf
  apply div_nonneg
  · apply List.sum_nonneg
    intro x hx
    obtain ⟨y, _, rfl⟩ := List.mem_map.mp hx
    positivity
  · exact Nat.cast_nonneg _

theorem totalVariance_nonneg (cfs : List (List ℚ)) (w : ℕ) :
    0 ≤ totalVariance cfs w := by
  unfold totalVariance
  apply List.sum_nonneg
  intro x hx
  obtain ⟨d, _, rfl⟩ := List.mem_map.mp hx
  apply div_nonneg
  · apply List.sum_nonneg
    intro y hy
    obtain ⟨z, _, rfl⟩ := List.mem_map.mp hy
    positivity
  · exact Nat.cast_nonneg _

theorem pcaComponents_mem (fs dirs : List (List ℚ)) (k w : ℕ) {c : Component}
    (hc : c ∈ pcaComponents fs dirs k w) :
    c.eigenvalue = eigvalOf (centered fs w) c.eigenvector ∧
    c.variance_ratio = c.eigenvalue / totalVariance (centered fs w) w := by
  unfold pcaComponents at hc
  have hmem := (List.perm_insertionSort compGE _).mem_iff.mp
    (List.take_subset _ _ hc)
  obtain ⟨v, _, rfl⟩ := List.mem_map.mp hmem
  exact ⟨rfl, rfl⟩

theorem pcaComponents_ratio_nonneg (fs dirs : List (List ℚ)) (k w : ℕ) :
    ∀ c ∈ pcaComponents fs dirs k w, 0 ≤ c.variance_ratio := by
  intro c hc
  obtain ⟨hev, hr⟩ := pcaComponents_mem fs dirs k w hc
  rw [hr, hev]
  exact div_nonneg (eigvalOf_nonneg _ _) (totalVariance_nonneg _ _)

theorem pcaComponents_sorted_ratio (fs dirs : List (List ℚ)) (k w : ℕ) :
    List.Sorted (fun a b : Component => b.variance_ratio ≤ a.variance_ratio)
      (pcaComponents fs dirs k w) := by
  have hs : List.Sorted compGE (pcaComponents fs dirs k w) :=
    List.Pairwise.sublist (List.take_sublist _ _)
      (List.sorted_insertionSort compGE _)
  refine List.Pairwise.imp_of_mem ?_ hs
  intro a b ha hb hab
  obtain ⟨hea, hra⟩ := pcaComponents_mem fs dirs k w ha
  obtain ⟨heb, hrb⟩ := pcaComponents_mem fs dirs k w hb
  rw [hra, hrb]
  rcases (totalVariance_nonneg (centered fs w) w).lt_or_eq with hT | hT
  · exact (div_le_div_iff_of_pos_right hT).mpr hab
  · rw [← hT, div_zero, div_zero]

/-- Claim C6: every session the decomposer constructs has variance ratios
that are non-negative and non-increasing in component order (components are
ordered by descending eigenvalue, component 0 holding the largest). -/
theorem session_varianceRatios (samples : List ℚ) (rate nc w h : ℕ)
    (dirs : List (List ℚ)) (s : PcaSession)
    (hs : createSession samples rate nc w h dirs = Except.ok s) :
    (∀ c ∈ s.components, 0 ≤ c.variance_ratio) ∧
    List.Sorted (fun a b : Component => b.variance_ratio ≤ a.variance_ratio)
      s.components := by
  have hcomp : s.components = pcaComponents (frames samples w h) dirs nc w := by
    unfold createSession at hs
    split_ifs at hs
    cases hs
    rfl
  rw [hcomp]
  exact ⟨pcaComponents_ratio_nonneg _ _ _ _, pcaComponents_sorted_ratio _ _ _ _⟩

/-- The session of the C6 witness invocation, computed by hand. -/
def witnessSession : PcaSession :=
  ⟨8, 2, 1, [2/3, 1/3], [⟨[1, 0], 2/9, 1/2⟩], [[1/3], [-(2/3)], [1/3]]⟩

/-- Witness for C6: a concrete successful `createSession` call and the
resulting ratio facts. -/
theorem session_varianceRatios_witness :
    createSession [1, 0, 1, 0] 8 1 2 1 [[1, 0], [0, 1]] =
      Except.ok witnessSession ∧
    ((∀ c ∈ witnessSession.components, 0 ≤ c.variance_ratio) ∧
      List.Sorted (fun a b : Component => b.variance_ratio ≤ a.variance_ratio)
        witnessSession.components) :=
  have h : createSession [1, 0, 1, 0] 8 1 2 1 [[1, 0], [0, 1]] =
      Except.ok witnessSession := by with_unfolding_all decide
  ⟨h, session_varianceRatios _ _ _ _ _ _ _ h⟩

/-- Clamp a sample amplitude to the interval [-1, 1]. -/
def clampQ (x : ℚ) : ℚ := max (-1) (min 1 x)

/-- Round half away from zero. -/
def roundHalfAway (x : ℚ) : ℤ :=
  if 0 ≤ x then ⌊x + 1 / 2⌋ else -⌊-x + 1 / 2⌋

/-- Modelled from the spec: the 16-bit quantization of the WAV Encoder
(section 4.5) behind `pca_encode_wav`; the implementation is not under the
sources. Samples are clipped to [-1, 1], scaled by 32767 and rounded half
away from zero. -/
def quantize (x : ℚ) : ℤ := roundHalfAway (clampQ x * 32767)

/-- The amplitude a caller obtains back from a decoded 16-bit sample. -/
def dequantize (q : ℤ) : ℚ := (q : ℚ) / 32767

/-- Little-endian two-byte two's-complement encoding of a 16-bit sample. -/
def int16LE (q : ℤ) : List ℕ :=
  [(q % 65536).toNat % 256, (q % 65536).toNat / 256]

/-- What a standard WAV reader makes of two little-endian data bytes. -/
def decodeInt16 (lo hi : ℕ) : ℤ :=
  if lo + 256 * hi < 32768 then ((lo + 256 * hi : ℕ) : ℤ)
  else ((lo + 256 * hi : ℕ) : ℤ) - 65536

/-- Little-endian four-byte encoding of a 32-bit header field. -/
def u32LE (n : ℕ) : List ℕ :=
  [n % 256, n / 256 % 256, n / 2 ^ 16 % 256, n / 2 ^ 24 % 256]

/-- Little-endian two-byte encoding of a 16-bit header field. -/
def u16LE (n : ℕ) : List ℕ := [n % 256, n / 256 % 256]

/-- Modelled from the spec: the canonical 44-byte RIFF/WAVE header for mono
16-bit PCM (section 4.5): RIFF size, WAVE, fmt chunk (PCM, 1 channel, sample
rate, byte rate, block align 2, 16 bits), data chunk size. -/
def wavHeader (numSamples rate : ℕ) : List ℕ :=
  [82, 73, 70, 70] ++ u32LE (36 + 2 * numSamples) ++ [87, 65, 86, 69] ++
  [102, 109, 116, 32] ++ u32LE 16 ++ u16LE 1 ++ u16LE 1 ++ u32LE rate ++
  u32LE (rate * 2) ++ u16LE 2 ++ u16LE 16 ++
  [100, 97, 116, 97] ++ u32LE (2 * numSamples)

/-- Modelled from the spec: `encodeWav` (section 4.5) behind
`pca_encode_wav`; the implementation is not under the sources. -/
def encodeWav (samples : List ℚ) (rate : ℕ) : List ℕ :=
  wavHeader samples.length rate ++ (samples.map quantize).bind int16LE

/-- The data-parsing half of a standard WAV reader: consecutive little-endian
16-bit samples. -/
def pairsToInts : List ℕ → List ℤ
  | lo :: hi :: rest => decodeInt16 lo hi :: pairsToInts rest
  | _ => []

/-- A standard WAV reader for the bytes `encodeWav` produces: skip the
44-byte header, then read the data chunk. -/
def decodeWavSamples (bytes : List ℕ) : List ℤ := pairsToInts (bytes.drop 44)

theorem decode_int16LE (q : ℤ) (h1 : -32768 ≤ q) (h2 : q < 32768) :
    decodeInt16 ((q % 65536).toNat % 256) ((q % 65536).toNat / 256) = q := by
  unfold decodeInt16
  split <;> omega

theorem pairsToInts_bind (qs : List ℤ)
    (hq : ∀ q ∈ qs, -32768 ≤ q ∧ q < 32768) :
    pairsToInts (qs.bind int16LE) = qs := by
  induction qs with
  | nil => rfl
  | cons q rest ih =>
    show decodeInt16 ((q % 65536).toNat % 256) ((q % 65536).toNat / 256) ::
      pairsToInts (rest.bind int16LE) = q :: rest
    rw [decode_int16LE q (hq q (List.mem_cons_self q rest)).1
        (hq q (List.mem_cons_self q rest)).2,
      ih (fun x hx => hq x (List.mem_cons_of_mem q hx))]

theorem floor_half_eq_zero : ⌊(1 / 2 : ℚ)⌋ = 0 := by
  rw [Int.floor_eq_zero_iff]
  constructor <;> norm_num

theorem quantize_bounds (x : ℚ) : -32767 ≤ quantize x ∧ quantize x ≤ 32767 := by
  have hc1 : -1 ≤ clampQ x := le_max_left _ _
  have hc2 : clampQ x ≤ 1 := max_le (by norm_num) (min_le_left _ _)
  unfold quantize roundHalfAway
  split
  case isTrue h =>
    have hup : ⌊clampQ x * 32767 + 1 / 2⌋ < 32768 :=
      Int.floor_lt.mpr (by push_cast; nlinarith)
    have hlo : (0 : ℤ) ≤ ⌊clampQ x * 32767 + 1 / 2⌋ :=
      Int.floor_nonneg.mpr (by linarith)
    omega
  case isFalse h =>
    have hup : ⌊-(clampQ x * 32767) + 1 / 2⌋ < 32768 :=
      Int.floor_lt.mpr (by push_cast; nlinarith)
    have hlo : (0 : ℤ) ≤ ⌊-(clampQ x * 32767) + 1 / 2⌋ :=
      Int.floor_nonneg.mpr (by push_neg at h; linarith)
    omega

theorem roundHalfAway_intCast (n : ℤ) : roundHalfAway (n : ℚ) = n := by
  unfold roundHalfAway
  split
  case isTrue h =>
    rw [Int.floor_int_add n (1 / 2 : ℚ), floor_half_eq_zero, add_zero]
  case isFalse h =>
    rw [show -(n : ℚ) = ((-n : ℤ) : ℚ) by push_cast; ring,
      Int.floor_int_add (-n) (1 / 2 : ℚ), floor_half_eq_zero, add_zero, neg_neg]

theorem quantize_dequantize (q : ℤ) (h1 : -32767 ≤ q) (h2 : q ≤ 32767) :
    quantize (dequantize q) = q := by
  have h327 : (0 : ℚ) < 32767 := by norm_num
  have hcl : clampQ ((q : ℚ) / 32767) = (q : ℚ) / 32767 := by
    unfold clampQ
    rw [min_eq_right ((div_le_one h327).mpr (by exact_mod_cast h2)),
      max_eq_right ((le_div_iff h327).mpr (by
        have h1q : (-32767 : ℚ) ≤ (q : ℚ) := by exact_mod_cast h1
        linarith))]
  unfold quantize dequantize
  rw [hcl, div_mul_cancel₀ _ (by norm_num : (32767 : ℚ) ≠ 0),
    roundHalfAway_intCast]

/-- Claim C5: for every sample sequence and sample rate, decoding the bytes
`encodeWav` produces with a standard WAV reader reproduces the
16-bit-quantized samples exactly, and quantization is idempotent: encoding
the already-quantized samples again yields bytes identical to the first
encoding. -/
theorem encodeWav_roundtrip (samples : List ℚ) (rate : ℕ) :
    decodeWavSamples (encodeWav samples rate) = samples.map quantize ∧
    encodeWav (samples.map (fun x => dequantize (quantize x))) rate =
      encodeWav samples rate := by
  constructor
  · unfold decodeWavSamples encodeWav
    rw [show (44 : ℕ) = (wavHeader samples.length rate).length from rfl,
      List.drop_left]
    refine pairsToInts_bind _ ?_
    intro q hqm
    obtain ⟨x, _, rfl⟩ := List.mem_map.mp hqm
    have hb := quantize_bounds x
    omega
  · unfold encodeWav
    rw [List.length_map, List.map_map]
    congr 1
    have hmap : List.map (quantize ∘ fun x => dequantize (quantize x)) samples =
        List.map quantize samples := by
      refine List.map_congr_left fun x _ => ?_
      have hb := quantize_bounds x
      exact quantize_dequantize _ hb.1 hb.2
    rw [hmap]

/-- Error kinds the external codec collaborator can report (section 4.6). -/
inductive ConvertError where
  | unsupportedFormat (m : String)
  | decodeFailure (m : String)
deriving DecidableEq

/-- The message carried by a conversion error. -/
def ConvertError.msg : ConvertError → String
  | ConvertError.unsupportedFormat m => m
  | ConvertError.decodeFailure m => m

/-- Modelled from the spec: the Conversion Gateway (section 4.6). The
external codec is the `decode` argument; the gateway re-encodes the decoded
PCM as WAV and propagates decode errors verbatim. -/
def convertToWav (decode : List ℕ → Except ConvertError (List ℚ × ℕ))
    (input : List ℕ) : Except ConvertError (List ℕ × ℕ) :=
  match decode input with
  | Except.error e => Except.error e
  | Except.ok (samples, rate) => Except.ok (encodeWav samples rate, rate)

/-- The `ConvertResultFFI` struct of remix.h and music_tool.h: the data
pointer is an optional byte list (`NULL` maps to `none`), with `length`,
`sample_rate` and an optional error string. -/
structure ConvertResultFFI where
  data : Option (List ℕ)
  length : ℕ
  sample_rate : ℕ
  error : Option String
deriving DecidableEq

/-- Modelled from the spec: `audio_convert_to_wav` of remix.h; the
implementation is not under the sources. Wraps the Conversion Gateway
result into the FFI struct. -/
def audio_convert_to_wav (decode : List ℕ → Except ConvertError (List ℚ × ℕ))
    (input : List ℕ) : ConvertResultFFI :=
  match convertToWav decode input with
  | Except.error e => ⟨none, 0, 0, some e.msg⟩
  | Except.ok (bytes, rate) => ⟨some bytes, bytes.length, rate, none⟩

/-- Modelled from remix.h: `pca_convert_to_wav` is declared under the comment
"Legacy aliases for backward compatibility": the canonical operation exposed
under the old name, not duplicated logic. -/
def pca_convert_to_wav (decode : List ℕ → Except ConvertError (List ℚ × ℕ))
    (input : List ℕ) : ConvertResultFFI :=
  audio_convert_to_wav decode input

/-- Claim C8: on every input the legacy entry point `pca_convert_to_wav`
computes exactly the same result as the canonical `audio_convert_to_wav`:
the old and new names are aliases of one operation. -/
theorem pca_convert_to_wav_alias
    (decode : List ℕ → Except ConvertError (List ℚ × ℕ)) (input : List ℕ) :
    pca_convert_to_wav decode input = audio_convert_to_wav decode input := rfl

/-- Modelled from the spec: the fixed stem list of the htdemucs_6s model the
stem-separation collaborator produces (section 6); the implementation behind
`demucs_stem_count` and `demucs_stem_name` of remix.h is not under the
sources. -/
def demucsStemNames : List String :=
  ["drums", "bass", "other", "vocals", "guitar", "piano"]

/-- Modelled from remix.h: the number of stems the model produces
(6 for htdemucs_6s). -/
def demucs_stem_count : ℕ := demucsStemNames.length

/-- Modelled from remix.h: a stem name by index; a static string the caller
must not free (`none` models a NULL return for an out-of-range index). -/
def demucs_stem_name (index : ℕ) : Option String := demucsStemNames.get? index

/-- Claim C9: `demucs_stem_count` is the constant 6, and for every index
below it `demucs_stem_name` returns a (fixed, index-determined) non-null
name; as pure functions both return the same value on every call. -/
theorem demucs_stem_constants :
    demucs_stem_count = 6 ∧
    ∀ index, index < demucs_stem_count →
      (demucs_stem_name index).isSome = true := by
  constructor
  · rfl
  · intro index hidx
    unfold demucs_stem_name
    rw [List.get?_eq_get hidx]
    rfl

/-- Witness for C9 at index 0. -/
theorem demucs_stem_constants_witness :
    demucs_stem_count = 6 ∧ (demucs_stem_name 0).isSome = true :=
  ⟨demucs_stem_constants.1, demucs_stem_constants.2 0 (by decide)⟩

/-- The `PcaResultFFI` struct of music_tool.h: optional session handle,
component count, sample rate and optional error string. -/
structure PcaResultFFI where
  session : Option PcaSession
  num_components : ℕ
  sample_rate : ℕ
  error : Option String

/-- The `AudioBufferFFI` struct of music_tool.h: optional sample data,
length, sample rate and optional error string. -/
structure AudioBufferFFI where
  data : Option (List ℚ)
  length : ℕ
  sample_rate : ℕ
  error : Option String

/-- Modelled from the spec: the FFI wrapper `pca_process_audio` of
music_tool.h; the implementation is not under the sources. Decodes the
input via the external codec, creates the PCA session, and fills the result
struct, setting the error string exactly on failure. -/
def pca_process_audio (decode : List ℕ → Except ConvertError (List ℚ × ℕ))
    (input : List ℕ) (nc w h : ℕ) (dirs : List (List ℚ)) : PcaResultFFI :=
  match decode input with
  | Except.error e => ⟨none, 0, 0, some e.msg⟩
  | Except.ok (samples, rate) =>
    match createSession samples rate nc w h dirs with
    | Except.error e => ⟨none, 0, 0, some e.message⟩
    | Except.ok s => ⟨some s, numComponents s, s.sample_rate, none⟩

/-- Modelled from the spec: the FFI wrapper `pca_get_component_audio` of
music_tool.h; the implementation is not under the sources. -/
def pca_get_component_audio (s : PcaSession) (i : ℤ) : AudioBufferFFI :=
  match getComponentAudio s i with
  | Except.error e => ⟨none, 0, 0, some e.message⟩
  | Except.ok (samples, rate) => ⟨some samples, samples.length, rate, none⟩

/-- Modelled from the spec: the FFI wrapper `pca_mix_components` of
music_tool.h; the implementation is not under the sources. -/
def pca_mix_components (s : PcaSession) (volumes : List ℚ) : AudioBufferFFI :=
  match mix s volumes with
  | Except.error e => ⟨none, 0, 0, some e.message⟩
  | Except.ok (samples, rate) => ⟨some samples, samples.length, rate, none⟩

theorem pca_process_audio_inv (decode : List ℕ → Except ConvertError (List ℚ × ℕ))
    (input : List ℕ) (nc w h : ℕ) (dirs : List (List ℚ)) :
    ((pca_process_audio decode input nc w h dirs).error = none ↔
      (pca_process_audio decode input nc w h dirs).session.isSome = true) ∧
    ((pca_process_audio decode input nc w h dirs).error = none ∨
      ((pca_process_audio decode input nc w h dirs).session = none ∧
        (pca_process_audio decode input nc w h dirs).num_components = 0)) := by
  rcases hd : decode input with e | p
  · simp [pca_process_audio, hd]
  · obtain ⟨samples, rate⟩ := p
    rcases hc : createSession samples rate nc w h dirs with e | s <;>
      simp [pca_process_audio, hd, hc]

theorem pca_get_component_audio_inv (s : PcaSession) (i : ℤ) :
    ((pca_get_component_audio s i).error = none ↔
      (pca_get_component_audio s i).data.isSome = true) ∧
    ((pca_get_component_audio s i).error = none ∨
      ((pca_get_component_audio s i).data = none ∧
        (pca_get_component_audio s i).length = 0)) := by
  rcases hg : getComponentAudio s i with e | p
  · simp [pca_get_component_audio, hg]
  · obtain ⟨samples, rate⟩ := p
    simp [pca_get_component_audio, hg]

theorem pca_mix_components_inv (s : PcaSession) (volumes : List ℚ) :
    ((pca_mix_components s volumes).error = none ↔
      (pca_mix_components s volumes).data.isSome = true) ∧
    ((pca_mix_components s volumes).error = none ∨
      ((pca_mix_components s volumes).data = none ∧
        (pca_mix_components s volumes).length = 0)) := by
  rcases hm : mix s volumes with e | p
  · simp [pca_mix_components, hm]
  · obtain ⟨samples, rate⟩ := p
    simp [pca_mix_components, hm]

theorem pca_convert_to_wav_inv (decode : List ℕ → Except ConvertError (List ℚ × ℕ))
    (input : List ℕ) :
    ((pca_convert_to_wav decode input).error = none ↔
      (pca_convert_to_wav decode input).data.isSome = true) ∧
    ((pca_convert_to_wav decode input).error = none ∨
      ((pca_convert_to_wav decode input).data = none ∧
        (pca_convert_to_wav decode input).length = 0)) := by
  rcases hcv : convertToWav decode input with e | p
  · simp [pca_convert_to_wav, audio_convert_to_wav, hcv]
  · obtain ⟨bytes, rate⟩ := p
    simp [pca_convert_to_wav, audio_convert_to_wav, hcv]

/-- Claim C10: every FFI result struct returned by `pca_process_audio`,
`pca_get_component_audio`, `pca_mix_components` and `pca_convert_to_wav`
satisfies the error-xor-data invariant: the error field is null exactly when
the operation succeeded, and on failure the data/session field is null with
the count/length zero, so callers can decide success from the error field
alone. -/
theorem ffi_error_xor_data (decode : List ℕ → Except ConvertError (List ℚ × ℕ))
    (input : List ℕ) (nc w h : ℕ) (dirs : List (List ℚ)) (s : PcaSession)
    (i : ℤ) (volumes : List ℚ) :
    (((pca_process_audio decode input nc w h dirs).error = none ↔
        (pca_process_audio decode input nc w h dirs).session.isSome = true) ∧
      ((pca_process_audio decode input nc w h dirs).error = none ∨
        ((pca_process_audio decode input nc w h dirs).session = none ∧
          (pca_process_audio decode input nc w h dirs).num_components = 0))) ∧
    (((pca_get_component_audio s i).error = none ↔
        (pca_get_component_audio s i).data.isSome = true) ∧
      ((pca_get_component_audio s i).error = none ∨
        ((pca_get_component_audio s i).data = none ∧
          (pca_get_component_audio s i).length = 0))) ∧
    (((pca_mix_components s volumes).error = none ↔
        (pca_mix_components s volumes).data.isSome = true) ∧
      ((pca_mix_components s volumes).error = none ∨
        ((pca_mix_components s volumes).data = none ∧
          (pca_mix_components s volumes).length = 0))) ∧
    (((pca_convert_to_wav decode input).error = none ↔
        (pca_convert_to_wav decode input).data.isSome = true) ∧
      ((pca_convert_to_wav decode input).error = none ∨
        ((pca_convert_to_wav decode input).data = none ∧
          (pca_convert_to_wav decode input).length = 0))) :=
  ⟨pca_process_audio_inv decode input nc w h dirs,
   pca_get_component_audio_inv s i,
   pca_mix_components_inv s volumes,
   pca_convert_to_wav_inv decode input⟩

end Remix
